import Mathlib

/-!
Verification development for the particle morphing system of the
portfolio-site repository (src/hero-particles.js).

The JavaScript/GLSL source is shallowly embedded over exact rational
arithmetic (ℚ): every numeric literal of the source is carried over as the
corresponding rational.  Square roots and transcendental functions
(`Math.sqrt`, `Math.cos`, `Math.sin`, the GLSL `hash`/`sin`/`mod` seed
derivation and `normalize`/`length`) are irrational-valued, so wherever the
source only *compares* a Euclidean distance against a threshold we compare
the squared distance against the squared threshold (an equivalence for
nonnegative quantities), and wherever the source *produces* such a value
(a unit direction vector, a lifetime phase) the embedding takes the value
as an explicit parameter constrained by exactly the properties the source
guarantees for it (stated at each use site).
-/

namespace HeroParticles

/-- 2-D point, as the `[x, y]` arrays of the source. -/
abbrev Pt := ℚ × ℚ

/-- Squared Euclidean distance.  The source computes
`Math.sqrt(Math.pow(dx,2) + Math.pow(dy,2))` and only ever compares the
result against nonnegative thresholds, which is equivalent to comparing
this squared distance against the squared threshold. -/
def distSq (p q : Pt) : ℚ := (p.1 - q.1) ^ 2 + (p.2 - q.2) ^ 2

/-- GLSL `clamp(x, lo, hi) = min(max(x, lo), hi)`. -/
def clampQ (x lo hi : ℚ) : ℚ := min (max x lo) hi

/-- GLSL `smoothstep(edge0, edge1, x)`:
`t = clamp((x - edge0)/(edge1 - edge0), 0, 1); t*t*(3 - 2*t)`. -/
def smoothstep (e0 e1 x : ℚ) : ℚ :=
  (clampQ ((x - e0) / (e1 - e0)) 0 1) ^ 2 * (3 - 2 * clampQ ((x - e0) / (e1 - e0)) 0 1)

/-- GLSL `mix(a, b, t) = a*(1-t) + b*t`. -/
def mixQ (a b t : ℚ) : ℚ := a * (1 - t) + b * t

/-- One texel of the simulation state: `vec4(pos.xy, scale, velocity)`
as written by the simulation fragment shader of
`MorphingParticles.createSimulation`. -/
structure SimState where
  x : ℚ
  y : ℚ
  scale : ℚ
  velocity : ℚ

/-- The per-frame, per-particle inputs of the simulation fragment shader.
`refX/refY` sample `uPosRefs`, `nearX/nearY` sample `uPosNearest`,
`hover` is the `uIsHovering` uniform.  `lifeEnd = 3.0 + sin(seed2*100.0)`
and `lifeTime = mod(seed*100.0 + uTime*0.5, lifeEnd)` are transcendental
functions of the texel hash and are taken as parameters; the source
guarantees `2 ≤ lifeEnd ≤ 4` (range of `3 + sin`) and
`0 ≤ lifeTime < lifeEnd` (range of GLSL `mod` with positive modulus).
`dirX/dirY` is `normalize(targetPos - pos.xy)` and `dist` is
`length(targetPos - pos.xy)`; the source guarantees `0 ≤ dist` and
`dirX^2 + dirY^2 = 1` whenever `dist > 0`. -/
structure SimInputs where
  refX : ℚ
  refY : ℚ
  nearX : ℚ
  nearY : ℚ
  hover : ℚ
  lifeTime : ℚ
  lifeEnd : ℚ
  dirX : ℚ
  dirY : ℚ
  dist : ℚ

/-- `targetPos = mix(refPos, nearestPos, uIsHovering * uIsHovering)` —
the blended goal pursued by a particle. -/
def blendedGoal (inp : SimInputs) : Pt :=
  (mixQ inp.refX inp.nearX (inp.hover * inp.hover),
   mixQ inp.refY inp.nearY (inp.hover * inp.hover))

/-- The body of the simulation fragment shader
(`MorphingParticles.createSimulation`, lines 325–364 of
src/hero-particles.js), transliterated statement by statement:

* `distStrength = smoothstep(0.15, 0.0, dist)`
* `if (dist > 0.005) pos.xy += direction * 0.01 * distStrength`
* `if (lifeTime < 0.01) { pos.xy = refPos; scale = 0.0; }`
* `targetScale = smoothstep(0.01, 0.5, lifeTime)
               - smoothstep(0.5, 1.0, lifeTime / lifeEnd)`
* `targetScale += smoothstep(0.1, 0.0, dist) * 0.0 * uIsHovering`
* `scale += (targetScale - scale) * 0.1`
* `velocity = smoothstep(0.15, 0.001, dist) * uIsHovering`
* `gl_FragColor = vec4(pos.xy, scale, velocity)` -/
def simUpdate (s : SimState) (inp : SimInputs) : SimState :=
  let distStrength := smoothstep (3/20) 0 inp.dist
  let x1 := if 1/200 < inp.dist then s.x + inp.dirX * (1/100) * distStrength else s.x
  let y1 := if 1/200 < inp.dist then s.y + inp.dirY * (1/100) * distStrength else s.y
  let x2 := if inp.lifeTime < 1/100 then inp.refX else x1
  let y2 := if inp.lifeTime < 1/100 then inp.refY else y1
  let scale1 := if inp.lifeTime < 1/100 then 0 else s.scale
  let targetScale1 := smoothstep (1/100) (1/2) inp.lifeTime
      - smoothstep (1/2) 1 (inp.lifeTime / inp.lifeEnd)
  let targetScale := targetScale1 + smoothstep (1/10) 0 inp.dist * 0 * inp.hover
  let scale2 := scale1 + (targetScale - scale1) * (1/10)
  let vel := smoothstep (3/20) (1/1000) inp.dist * inp.hover
  { x := x2, y := y2, scale := scale2, velocity := vel }

/-- Magnitude of the displacement the shader's move-toward-goal step
applies to `pos.xy` in one frame, as a function of the distance `d` to the
blended goal: the shader adds `direction * 0.01 * distStrength` when
`dist > 0.005` (and `direction` is unit length), otherwise nothing. -/
def stepMagnitude (d : ℚ) : ℚ :=
  if 1/200 < d then 1/100 * smoothstep (3/20) 0 d else 0

/-- One step of the hover-intensity smoothing in `MorphingParticles.update`:
`this.hoverProgress += (targetHover - this.hoverProgress) * 0.05`. -/
def hoverStep (target h : ℚ) : ℚ := h + (target - h) * (1/20)

/-- The smoothed hover intensity after `n` frames, for a step input: the
flag flips to 1 at frame 0 and holds (`targetHover = 1` every frame),
starting from `hoverProgress = 0` (constructor initial value). -/
def hoverSeq : ℕ → ℚ
  | 0 => 0
  | n + 1 => hoverStep 1 (hoverSeq n)

/-! ### The Poisson disk sampler (`PoissonDiskSampling`)

The source computes `cellSize = minDistance / Math.sqrt(2)`, an irrational
value, so the embedding carries `cellSize` as an explicit rational field of
the configuration, constrained in `PDSConfig.WF` by the two inequalities
that the real value `minDistance/√2` satisfies and that are the only facts
the algorithm uses: `2·cellSize² ≤ minDistance²` (two points in one grid
cell are strictly closer than `minDistance`) and
`minDistance ≤ 2·cellSize` (every point closer than `minDistance` to a
candidate lies inside the candidate's 5×5-cell search window).
Randomness (`Math.random`) is abstracted into explicit oracles: the seed
point of `fill`, the frontier index drawn each iteration, and the polar
offset `(cos(angle)·distance, sin(angle)·distance)` (transcendental)
added to the frontier point to form each candidate. -/

/-- The options of `new PoissonDiskSampling({...})` together with the
derived `cellSize` (see the section comment). -/
structure PDSConfig where
  shapeW : ℚ
  shapeH : ℚ
  minDistance : ℚ
  cellSize : ℚ
  maxTries : ℕ

/-- `this.gridWidth = Math.ceil(this.shape[0] / this.cellSize)`. -/
def PDSConfig.gridWidth (cfg : PDSConfig) : ℕ := ⌈cfg.shapeW / cfg.cellSize⌉.toNat

/-- `this.gridHeight = Math.ceil(this.shape[1] / this.cellSize)`. -/
def PDSConfig.gridHeight (cfg : PDSConfig) : ℕ := ⌈cfg.shapeH / cfg.cellSize⌉.toNat

/-- Well-formedness: positive domain and spacing, and the two Bridson cell
inequalities satisfied by the source's `cellSize = minDistance/√2`. -/
def PDSConfig.WF (cfg : PDSConfig) : Prop :=
  0 < cfg.shapeW ∧ 0 < cfg.shapeH ∧ 0 < cfg.minDistance ∧ 0 < cfg.cellSize ∧
  2 * cfg.cellSize ^ 2 ≤ cfg.minDistance ^ 2 ∧ cfg.minDistance ≤ 2 * cfg.cellSize

/-- The sampler configured by `MorphingParticles.createBasePoints`:
`shape: [500, 500], minDistance: 8, maxDistance: 10, tries: 20`.
The source's `cellSize` is `8/√2 = 5.65685…`; the rational stand-in
`113/20 = 5.65` satisfies both `PDSConfig.WF` inequalities and yields the
same `89 × 89` grid as the source (`⌈500/(8/√2)⌉ = ⌈88.39⌉ = 89`,
`⌈500/(113/20)⌉ = ⌈88.50⌉ = 89`). -/
def cfg500 : PDSConfig :=
  { shapeW := 500, shapeH := 500, minDistance := 8, cellSize := 113/20, maxTries := 20 }

/-- A small configuration (domain `10 × 10`, `minDistance 2`,
`cellSize 1.3 ∈ (2/2, 2/√2]`) used to instantiate the sampler theorems on
concrete runs. -/
def cfgTest : PDSConfig :=
  { shapeW := 10, shapeH := 10, minDistance := 2, cellSize := 13/10, maxTries := 3 }

/-- `const gridX = Math.floor(point[0] / this.cellSize)`. -/
def gridX (cfg : PDSConfig) (p : Pt) : ℤ := ⌊p.1 / cfg.cellSize⌋

/-- `const gridY = Math.floor(point[1] / this.cellSize)`. -/
def gridY (cfg : PDSConfig) (p : Pt) : ℤ := ⌊p.2 / cfg.cellSize⌋

/-- Mutable sampler state.  The spatial hash is the source's flat
`this.grid[gridY * this.gridWidth + gridX]` array, modelled as a map from
the two cell coordinates; the representations agree because every stored
point is in-domain, so its cell indices are in range and the row-major
flat index is injective on them. -/
structure PDSState where
  grid : ℤ → ℤ → Option Pt
  points : List Pt
  activeList : List Pt

/-- The constructor's empty grid, `points = []`, `activeList = []`. -/
def initPDSState : PDSState :=
  { grid := fun _ _ => none, points := [], activeList := [] }

/-- `PoissonDiskSampling.addPoint`: store the point in its grid cell and
push it onto both the accepted list and the frontier. -/
def addPoint (cfg : PDSConfig) (st : PDSState) (p : Pt) : PDSState :=
  { grid := fun gx gy =>
      if gx = gridX cfg p ∧ gy = gridY cfg p then some p else st.grid gx gy,
    points := st.points ++ [p],
    activeList := st.activeList ++ [p] }

/-- The 5×5 window of cell offsets scanned by `isValidPoint`
(`searchRadius = 2`; `dy` outer loop, `dx` inner loop). -/
def searchOffsets : List (ℤ × ℤ) :=
  [(-2,-2),(-1,-2),(0,-2),(1,-2),(2,-2),
   (-2,-1),(-1,-1),(0,-1),(1,-1),(2,-1),
   (-2,0),(-1,0),(0,0),(1,0),(2,0),
   (-2,1),(-1,1),(0,1),(1,1),(2,1),
   (-2,2),(-1,2),(0,2),(1,2),(2,2)]

/-- One window cell of the `isValidPoint` scan: out-of-range and empty
cells pass; an occupied cell passes iff its occupant is not strictly
closer than `minDistance` (`dist < this.minDistance`, i.e.
`distSq < minDistance²`, fails the candidate). -/
def cellOk (cfg : PDSConfig) (st : PDSState) (p : Pt) (o : ℤ × ℤ) : Bool :=
  let nx := gridX cfg p + o.1
  let ny := gridY cfg p + o.2
  if 0 ≤ nx ∧ nx < (cfg.gridWidth : ℤ) ∧ 0 ≤ ny ∧ ny < (cfg.gridHeight : ℤ) then
    match st.grid nx ny with
    | some nb => decide (cfg.minDistance ^ 2 ≤ distSq p nb)
    | none => true
  else true

/-- `PoissonDiskSampling.isValidPoint`: reject out-of-domain candidates
(`point[0] < 0 || point[0] >= this.shape[0] || …`), then run the bounded
5×5-cell neighbor scan. -/
def isValidPoint (cfg : PDSConfig) (st : PDSState) (p : Pt) : Bool :=
  if p.1 < 0 ∨ cfg.shapeW ≤ p.1 ∨ p.2 < 0 ∨ cfg.shapeH ≤ p.2 then false
  else searchOffsets.all (cellOk cfg st p)

/-- Membership in the sampling domain `[0, W) × [0, H)`. -/
def inDomain (cfg : PDSConfig) (p : Pt) : Prop :=
  0 ≤ p.1 ∧ p.1 < cfg.shapeW ∧ 0 ≤ p.2 ∧ p.2 < cfg.shapeH

/-- The `while (this.activeList.length > 0)` loop of
`PoissonDiskSampling.fill`, with `fuel` bounding the number of iterations
(the source loop is unbounded; `c7_fill_terminates` shows a fuel of
`2·gridWidth·gridHeight` always reaches the empty frontier, after which
the state no longer changes).  `idxOracle n` abstracts
`Math.floor(this.rng() * this.activeList.length)` for iteration `n`
(reduced `mod` the frontier length, as the source value always is in
range), and `offOracle n i` abstracts the polar offset of candidate `i` of
iteration `n`.  The candidate scan
`for (let i = 0; i < this.maxTries; i++) { …; if (isValidPoint) {
addPoint; found = true; break; } }` accepts the first valid candidate; if
none is valid, the chosen frontier entry is spliced out
(`this.activeList.splice(randomIndex, 1)`). -/
def fillLoop (cfg : PDSConfig) (idxOracle : ℕ → ℕ) (offOracle : ℕ → ℕ → Pt) :
    ℕ → ℕ → PDSState → PDSState
  | 0, _, st => st
  | fuel + 1, n, st =>
    if st.activeList.isEmpty then st
    else
      let ri := idxOracle n % st.activeList.length
      let point := st.activeList.getD ri ((0:ℚ), (0:ℚ))
      let cands := (List.range cfg.maxTries).map
        (fun i => (point.1 + (offOracle n i).1, point.2 + (offOracle n i).2))
      match cands.find? (fun c => isValidPoint cfg st c) with
      | some c => fillLoop cfg idxOracle offOracle fuel (n + 1) (addPoint cfg st c)
      | none =>
        fillLoop cfg idxOracle offOracle fuel (n + 1)
          { st with activeList := st.activeList.eraseIdx ri }

/-- `PoissonDiskSampling.fill`: seed with the first point
(`[this.rng() * this.shape[0], this.rng() * this.shape[1]]`, which always
lies in `[0, W) × [0, H)` since `Math.random() ∈ [0, 1)`), run the loop,
return `this.points`. -/
def fill (cfg : PDSConfig) (first : Pt) (idxOracle : ℕ → ℕ)
    (offOracle : ℕ → ℕ → Pt) (fuel : ℕ) : List Pt :=
  (fillLoop cfg idxOracle offOracle fuel 0 (addPoint cfg initPDSState first)).points

/-- The loop invariant of `fill`: accepted points are in-domain, each is
registered in the spatial hash at its own cell, the hash holds only
accepted points, and accepted points are pairwise at squared distance at
least `minDistance²`. -/
structure PDSInv (cfg : PDSConfig) (st : PDSState) : Prop where
  dom : ∀ p ∈ st.points, inDomain cfg p
  own : ∀ p ∈ st.points, st.grid (gridX cfg p) (gridY cfg p) = some p
  back : ∀ gx gy : ℤ, ∀ p : Pt, st.grid gx gy = some p → p ∈ st.points
  sep : st.points.Pairwise (fun p q => cfg.minDistance ^ 2 ≤ distSq p q)

/-! ### `createDataTexture` addressing -/

/-- `this.size = 256`: edge length of the particle state textures. -/
def texSize : ℕ := 256

/-- The four flat `Float32Array` indices `createDataTexture` writes for
particle `i`: `idx = i * 4`, then `data[idx + 0] … data[idx + 3]`. -/
def texWriteIndices (i : ℕ) : List ℕ := [4*i, 4*i+1, 4*i+2, 4*i+3]

/-- The texel particle `i` occupies in the row-major `size × size` state
texture (equivalently, `createParticles` computes its uv as
`u = (i % size)/size`, `v = floor(i / size)/size`). -/
def texel (i : ℕ) : ℕ × ℕ := (i % texSize, i / texSize)

/-! ### The silhouette mapper (`getPixelBrightness` / `createImagePoints`) -/

/-- A decoded 500×500 source image, as the red channel value (0–255) at
pixel `(x, y)`.  `loadImage` rasterizes the image into a 500×500 canvas;
the flat `imageData.data` RGBA array read at `(py*500 + px)*4` is the red
channel at `(px, py)`. -/
def Image := ℕ → ℕ → ℕ

/-- `MorphingParticles.getPixelBrightness`: clamp the coordinate into
`[0, 499]`, read the red channel `r`, return `1 - r/255`.
(`Math.round` is the identity here: both callers pass integers, modelled
as ℕ so the lower clamp is automatic.) -/
def getPixelBrightness (img : Image) (x y : ℕ) : ℚ :=
  1 - (img (min x 499) (min y 499) : ℚ) / 255

/-- The 4-px-stepped sample coordinates `0, 4, …, 496` that the
`createImagePoints` double loop visits
(`for (let y = 0; y < 500; y += gap)` with `gap = 4`). -/
def gridCoords : List ℕ := (List.range 125).map (fun k => 4 * k)

/-- First phase of `MorphingParticles.createImagePoints`: collect all
4-px-grid sample coordinates whose brightness exceeds `0.5` — the "ink"
pixel set — in loop order (`y` outer, `x` inner). -/
def imageInkPoints (img : Image) : List (ℕ × ℕ) :=
  gridCoords.flatMap (fun y =>
    (gridCoords.filter (fun x => decide (1/2 < getPixelBrightness img x y))).map
      (fun x => (x, y)))

/-- One step of the running nearest-ink scan of `createImagePoints`.
The `Option ℚ` component models `nearestDistance`, which starts at
`Infinity` (`none`) and otherwise holds the squared distance of the
current `nearestPoint` from the base point (the source stores the
`Math.sqrt` of this and compares with strict `<`, which is equivalent on
nonnegative values). -/
def nearestAcc (base : Pt) : Pt × Option ℚ → ℕ × ℕ → Pt × Option ℚ
  | (_, none), g => (((g.1 : ℚ), (g.2 : ℚ)), some (distSq ((g.1 : ℚ), (g.2 : ℚ)) base))
  | (p, some d), g =>
      if distSq ((g.1 : ℚ), (g.2 : ℚ)) base < d
      then (((g.1 : ℚ), (g.2 : ℚ)), some (distSq ((g.1 : ℚ), (g.2 : ℚ)) base))
      else (p, some d)

/-- Second phase of `createImagePoints` for one base point: scan all ink
points keeping the strictly-nearest one; `nearestPoint` starts as the base
point itself, so an empty ink list leaves the base point as its own
target. -/
def nearestInk (base : Pt) (inks : List (ℕ × ℕ)) : Pt :=
  (inks.foldl (nearestAcc base) (base, none)).1

/-- `MorphingParticles.createImagePoints`: every base point is assigned
its nearest ink pixel (or itself when no ink pixel exists). -/
def createImagePoints (img : Image) (basePoints : List Pt) : List Pt :=
  basePoints.map (fun b => nearestInk b (imageInkPoints img))

/-- The all-white source image: every pixel's red channel is 255. -/
def allWhiteImage : Image := fun _ _ => 255

/-- The all-black source image: every pixel's red channel is 0. -/
def allBlackImage : Image := fun _ _ => 0

/-! ### The double-buffered (ping-pong) render-target model

`MorphingParticles.createSimulation` allocates two float render targets
`rt1`/`rt2`; `MorphingParticles.update` reads `rt1`, writes `rt2` and swaps
them.  The two physical buffers are modelled as `Buf.A`/`Buf.B` and the
fields `rt1`/`rt2` of `RenderState` track which physical buffer each name
currently denotes. -/

/-- One of the two physical offscreen buffers allocated by
`createSimulation` (`new WebGLRenderTarget(...)`, twice). -/
inductive Buf
  | A
  | B
deriving DecidableEq

/-- A texture that can be bound to the simulation material's `uPosition`
uniform: either the base-point `DataTexture` installed by
`createSimulation` (`this.positionTexture`) or the texture of one of the
two render-target buffers. -/
inductive SimTex
  | dataTexture
  | target (b : Buf)
deriving DecidableEq

/-- What a render-target buffer currently holds: `uninit` if it has never
been rendered to — a freshly allocated float `WebGLRenderTarget` texture
reads as all zeros, i.e. every texel `(0,0,0,0)`: every particle at
position `(0,0)` with `scale = 0` and `velocity = 0` — or the simulation
output of frame `n`. -/
inductive BufContent
  | uninit
  | simOutput (frame : ℕ)
deriving DecidableEq

/-- The mutable render plumbing of a `MorphingParticles` instance:
which physical buffer `this.rt1`/`this.rt2` denote, what is bound to the
simulation material's `uPosition`, and what each buffer holds. -/
structure RenderState where
  rt1 : Buf
  rt2 : Buf
  simUniform : SimTex
  content : Buf → BufContent

/-- The observable buffer traffic of one `MorphingParticles.update` call:
which texture the simulation pass samples as its input (and, if it is a
render target, what that buffer held), which buffer the simulation pass
writes, and which buffer the particle renderer is given to read. -/
structure FrameEvents where
  simReadTex : SimTex
  simReadContent : BufContent
  simWriteBuf : Buf
  rendererReadBuf : Buf

/-- State after `createSimulation`: `uPosition` holds the base-point
`DataTexture` and neither render target has ever been rendered to. -/
def initRenderState : RenderState :=
  { rt1 := Buf.A, rt2 := Buf.B, simUniform := SimTex.dataTexture,
    content := fun _ => BufContent.uninit }

/-- One call of `MorphingParticles.update` (frame `n`), restricted to its
uniform and render-target traffic, in source order:
1. `this.simMaterial.uniforms.uPosition.value = this.rt1.texture`;
2. `this.renderer.setRenderTarget(this.rt2)` and render the simulation
   scene: the pass samples the texture bound to `uPosition` (which step 1
   just made `rt1`'s texture) and writes frame `n`'s output into `rt2`;
3. `this.renderMaterial.uniforms.uPosition.value = this.rt2.texture`: the
   particle renderer reads `rt2`;
4. `[this.rt1, this.rt2] = [this.rt2, this.rt1]`: the ping-pong swap. -/
def updateFrame (n : ℕ) (st : RenderState) : FrameEvents × RenderState :=
  ({ simReadTex := SimTex.target st.rt1,
     simReadContent := st.content st.rt1,
     simWriteBuf := st.rt2,
     rendererReadBuf := st.rt2 },
   { rt1 := st.rt2, rt2 := st.rt1,
     simUniform := SimTex.target st.rt1,
     content := fun b => if b = st.rt2 then BufContent.simOutput n else st.content b })

/-- Render plumbing state at the start of frame `n` (frame 0 is the first
`update` call after `createSimulation`). -/
def stateAt : ℕ → RenderState
  | 0 => initRenderState
  | n + 1 => (updateFrame n (stateAt n)).2

/-- The buffer traffic of frame `n`. -/
def eventsAt (n : ℕ) : FrameEvents := (updateFrame n (stateAt n)).1

end HeroParticles

namespace HeroParticles

/-! ### Basic facts about the GLSL primitives -/

theorem clampQ_nonneg (x hi : ℚ) (hhi : 0 ≤ hi) : 0 ≤ clampQ x 0 hi := by
  unfold clampQ
  rcases le_total x 0 with h | h
  · simp [max_eq_right h, hhi]
  · exact le_min (le_max_right _ _) hhi

theorem clampQ_le (x lo hi : ℚ) : clampQ x lo hi ≤ hi := min_le_right _ _

theorem clampQ_unit_mem (x : ℚ) : 0 ≤ clampQ x 0 1 ∧ clampQ x 0 1 ≤ 1 :=
  ⟨clampQ_nonneg x 1 (by norm_num), clampQ_le x 0 1⟩

theorem cubic_nonneg {t : ℚ} (h0 : 0 ≤ t) (h1 : t ≤ 1) : 0 ≤ t ^ 2 * (3 - 2 * t) := by
  nlinarith

theorem cubic_le_one {t : ℚ} (h0 : 0 ≤ t) (h1 : t ≤ 1) : t ^ 2 * (3 - 2 * t) ≤ 1 := by
  nlinarith [sq_nonneg (1 - t)]

theorem cubic_mono {t₁ t₂ : ℚ} (h0 : 0 ≤ t₁) (h12 : t₁ ≤ t₂) (h1 : t₂ ≤ 1) :
    t₁ ^ 2 * (3 - 2 * t₁) ≤ t₂ ^ 2 * (3 - 2 * t₂) := by
  nlinarith [mul_nonneg (sub_nonneg.mpr h12) h0, mul_nonneg (sub_nonneg.mpr h12) (sub_nonneg.mpr h1),
    mul_nonneg (mul_nonneg (sub_nonneg.mpr h12) h0) (sub_nonneg.mpr h1)]

theorem smoothstep_nonneg (e0 e1 x : ℚ) : 0 ≤ smoothstep e0 e1 x := by
  unfold smoothstep
  obtain ⟨h0, h1⟩ := clampQ_unit_mem ((x - e0) / (e1 - e0))
  exact cubic_nonneg h0 h1

theorem smoothstep_le_one (e0 e1 x : ℚ) : smoothstep e0 e1 x ≤ 1 := by
  unfold smoothstep
  obtain ⟨h0, h1⟩ := clampQ_unit_mem ((x - e0) / (e1 - e0))
  exact cubic_le_one h0 h1

/-- Below the first edge (with increasing edges) smoothstep is 0. -/
theorem smoothstep_eq_zero {e0 e1 x : ℚ} (he : e0 < e1) (hx : x ≤ e0) :
    smoothstep e0 e1 x = 0 := by
  unfold smoothstep clampQ
  have harg : (x - e0) / (e1 - e0) ≤ 0 :=
    div_nonpos_iff.mpr (Or.inr ⟨by linarith, by linarith⟩)
  rw [max_eq_right harg]
  norm_num

/-- At or above the second edge (with increasing edges) smoothstep is 1. -/
theorem smoothstep_eq_one {e0 e1 x : ℚ} (he : e0 < e1) (hx : e1 ≤ x) :
    smoothstep e0 e1 x = 1 := by
  unfold smoothstep clampQ
  have hpos : 0 < e1 - e0 := by linarith
  have harg : 1 ≤ (x - e0) / (e1 - e0) := by
    rw [le_div_iff₀ hpos]; linarith
  have h0 : (0:ℚ) ≤ (x - e0) / (e1 - e0) := by linarith
  rw [max_eq_left h0, min_eq_right harg]
  norm_num

/-- With reversed edges (`e1 < e0`) smoothstep is antitone in its argument. -/
theorem smoothstep_antitone {e0 e1 x₁ x₂ : ℚ} (he : e1 < e0) (hx : x₁ ≤ x₂) :
    smoothstep e0 e1 x₂ ≤ smoothstep e0 e1 x₁ := by
  unfold smoothstep
  have hneg : e1 - e0 < 0 := by linarith
  have harg : (x₂ - e0) / (e1 - e0) ≤ (x₁ - e0) / (e1 - e0) := by
    apply div_le_div_of_nonpos_of_le (le_of_lt hneg)
    linarith
  have hc : clampQ ((x₂ - e0) / (e1 - e0)) 0 1 ≤ clampQ ((x₁ - e0) / (e1 - e0)) 0 1 := by
    unfold clampQ
    exact min_le_min (max_le_max harg le_rfl) le_rfl
  obtain ⟨h20, h21⟩ := clampQ_unit_mem ((x₂ - e0) / (e1 - e0))
  obtain ⟨h10, h11⟩ := clampQ_unit_mem ((x₁ - e0) / (e1 - e0))
  exact cubic_mono h20 hc h11

/-! ### Claim C2: per-frame displacement magnitude -/

/-- C2 counterexample.  The claim asserts that the displacement magnitude
is non-increasing as the distance `d` to the blended goal decreases on
`(0.005, 0.15)`.  At the concrete distances `d₁ = 0.01 < d₂ = 0.1`, both in
`(0.005, 0.15)`, the magnitude at the *smaller* distance is strictly
larger: `stepMagnitude 0.01 = 3332/337500 > 875/337500 = stepMagnitude 0.1`,
so the claimed monotonicity fails — the shader's `smoothstep(0.15, 0.0, d)`
falloff grows as `d` shrinks. -/
theorem c2_counterexample :
    (1/200 : ℚ) < 1/100 ∧ (1/100 : ℚ) < 1/10 ∧ (1/10 : ℚ) < 3/20 ∧
      ¬ stepMagnitude (1/100) ≤ stepMagnitude (1/10) := by
  refine ⟨by norm_num, by norm_num, by norm_num, ?_⟩
  unfold stepMagnitude smoothstep clampQ
  norm_num

/-- C2 (amended): in the per-particle per-frame update, for a particle at
distance `d` from its blended goal the displacement applied that frame has
magnitude `0.01 * smoothstep(0.15, 0.0, d)` when `d > 0.005` and `0` when
`d ≤ 0.005`; this magnitude is non-DEcreasing as `d` decreases on
`(0.005, 0.15)` (it is antitone in `d`), so particles speed up as they
approach their destination and stop entirely once within `0.005` of it.
The first conjunct grounds `stepMagnitude` in the full shader update: when
no rebirth occurs (`lifeTime ≥ 0.01`) and the direction vector is unit
length, the squared length of the position change written by `simUpdate`
is exactly `stepMagnitude dist` squared. -/
theorem c2_step_magnitude :
    (∀ (s : SimState) (inp : SimInputs),
      inp.dirX ^ 2 + inp.dirY ^ 2 = 1 → ¬ inp.lifeTime < 1/100 →
      ((simUpdate s inp).x - s.x) ^ 2 + ((simUpdate s inp).y - s.y) ^ 2
        = stepMagnitude inp.dist ^ 2) ∧
    (∀ d : ℚ, 1/200 < d → stepMagnitude d = 1/100 * smoothstep (3/20) 0 d) ∧
    (∀ d : ℚ, d ≤ 1/200 → stepMagnitude d = 0) ∧
    (∀ d₁ d₂ : ℚ, 1/200 < d₁ → d₁ ≤ d₂ → stepMagnitude d₂ ≤ stepMagnitude d₁) := by
  refine ⟨?_, ?_, ?_, ?_⟩
  · intro s inp hdir hlife
    unfold simUpdate stepMagnitude
    simp only [if_neg hlife]
    split_ifs with hd
    · nlinarith [sq_nonneg (smoothstep (3/20) 0 inp.dist)]
    · ring
  · intro d hd
    unfold stepMagnitude
    rw [if_pos hd]
  · intro d hd
    unfold stepMagnitude
    rw [if_neg (not_lt.mpr hd)]
  · intro d₁ d₂ h₁ h₁₂
    have h₂ : (1/200 : ℚ) < d₂ := lt_of_lt_of_le h₁ h₁₂
    unfold stepMagnitude
    rw [if_pos h₁, if_pos h₂]
    have := smoothstep_antitone (by norm_num : (0:ℚ) < 3/20) h₁₂
    linarith

/-- C2 witness: the amended statement instantiated at concrete distances. -/
theorem c2_step_magnitude_witness :
    stepMagnitude (1/10) = 1/100 * smoothstep (3/20) 0 (1/10) ∧
    stepMagnitude (1/200) = 0 ∧
    stepMagnitude (1/10) ≤ stepMagnitude (1/100) :=
  ⟨c2_step_magnitude.2.1 (1/10) (by norm_num),
   c2_step_magnitude.2.2.1 (1/200) (by norm_num),
   c2_step_magnitude.2.2.2 (1/100) (1/10) (by norm_num) (by norm_num)⟩

/-! ### Claim C4: scale and velocity stay in [0,1] without explicit clamps -/

/-- The lifetime-envelope term
`smoothstep(0.01, 0.5, lifeTime) - smoothstep(0.5, 1.0, lifeTime/lifeEnd)`
lies in `[0,1]` whenever `lifeEnd ≥ 2` (the source guarantees
`lifeEnd = 3 + sin(seed2*100) ∈ [2,4]`): the subtracted back-half ramp can
only be positive once `lifeTime > lifeEnd/2 ≥ 1`, at which point the
front-half ramp is already saturated at 1. -/
theorem targetScale_mem_unit (lifeTime : ℚ) {lifeEnd : ℚ} (hle : 2 ≤ lifeEnd) :
    0 ≤ smoothstep (1/100) (1/2) lifeTime - smoothstep (1/2) 1 (lifeTime / lifeEnd) ∧
    smoothstep (1/100) (1/2) lifeTime - smoothstep (1/2) 1 (lifeTime / lifeEnd) ≤ 1 := by
  have hlepos : (0:ℚ) < lifeEnd := by linarith
  rcases le_or_lt (lifeTime / lifeEnd) (1/2) with hr | hr
  · rw [smoothstep_eq_zero (by norm_num : (1/2:ℚ) < 1) hr]
    have h0 := smoothstep_nonneg (1/100) (1/2) lifeTime
    have h1 := smoothstep_le_one (1/100) (1/2) lifeTime
    constructor <;> linarith
  · have hlt : 1 ≤ lifeTime := by
      have := (lt_div_iff₀ hlepos).mp hr
      linarith
    rw [smoothstep_eq_one (by norm_num : (1/100:ℚ) < 1/2) (by linarith)]
    have h0 := smoothstep_nonneg (1/2) 1 (lifeTime / lifeEnd)
    have h1 := smoothstep_le_one (1/2) 1 (lifeTime / lifeEnd)
    constructor <;> linarith

/-- C4: if the incoming `scale` is in `[0,1]` and the hover intensity is in
`[0,1]`, the state written by the simulation update has `scale ∈ [0,1]` and
`velocity ∈ [0,1]`.  The definition of `simUpdate` contains no clamp on
either output; the range follows from the smoothstep construction of
`targetScale`, the blend `scale + (targetScale - scale)*0.1` and
`velocity = smoothstep(0.15, 0.001, dist) * hover` alone.  The hypotheses
on `lifeEnd` record the range the source guarantees for
`3 + sin(seed2*100)`. -/
theorem c4_scale_velocity_unit (s : SimState) (inp : SimInputs)
    (hs0 : 0 ≤ s.scale) (hs1 : s.scale ≤ 1)
    (hh0 : 0 ≤ inp.hover) (hh1 : inp.hover ≤ 1)
    (hle : 2 ≤ inp.lifeEnd) :
    0 ≤ (simUpdate s inp).scale ∧ (simUpdate s inp).scale ≤ 1 ∧
    0 ≤ (simUpdate s inp).velocity ∧ (simUpdate s inp).velocity ≤ 1 := by
  obtain ⟨ht0, ht1⟩ := targetScale_mem_unit inp.lifeTime hle
  have hv0 : 0 ≤ smoothstep (3/20) (1/1000) inp.dist * inp.hover :=
    mul_nonneg (smoothstep_nonneg _ _ _) hh0
  have hv1 : smoothstep (3/20) (1/1000) inp.dist * inp.hover ≤ 1 := by
    nlinarith [smoothstep_nonneg (3/20) (1/1000) inp.dist,
      smoothstep_le_one (3/20) (1/1000) inp.dist]
  unfold simUpdate
  simp only [mul_zero, zero_mul, add_zero]
  split_ifs
  all_goals exact ⟨by nlinarith, by nlinarith, hv0, hv1⟩

/-- C4 witness: concrete state and inputs satisfying the hypotheses. -/
theorem c4_scale_velocity_unit_witness :
    0 ≤ (simUpdate ⟨0, 0, 1/2, 0⟩ ⟨0, 0, 1, 1, 1/2, 1, 3, 1, 0, 1/10⟩).scale ∧
    (simUpdate ⟨0, 0, 1/2, 0⟩ ⟨0, 0, 1, 1, 1/2, 1, 3, 1, 0, 1/10⟩).scale ≤ 1 ∧
    0 ≤ (simUpdate ⟨0, 0, 1/2, 0⟩ ⟨0, 0, 1, 1, 1/2, 1, 3, 1, 0, 1/10⟩).velocity ∧
    (simUpdate ⟨0, 0, 1/2, 0⟩ ⟨0, 0, 1, 1, 1/2, 1, 3, 1, 0, 1/10⟩).velocity ≤ 1 :=
  c4_scale_velocity_unit ⟨0, 0, 1/2, 0⟩ ⟨0, 0, 1, 1, 1/2, 1, 3, 1, 0, 1/10⟩
    (by norm_num) (by norm_num) (by norm_num) (by norm_num) (by norm_num)

/-! ### Claim C6: the rebirth event -/

/-- C6: in any frame whose lifetime phase satisfies `lifeTime < 0.01`, the
state written by the simulation update has position exactly the particle's
reference position and `scale` exactly `0`, even though the easing step
`scale += (targetScale - scale) * 0.1` still executes after the reset:
at such a phase `targetScale` evaluates to `0`
(both smoothstep ramps vanish and the third term carries a factor `0.0`),
so the easing leaves the reset value `0` unchanged. -/
theorem c6_rebirth (s : SimState) (inp : SimInputs)
    (hrb : inp.lifeTime < 1/100) (hle : 2 ≤ inp.lifeEnd) :
    (simUpdate s inp).x = inp.refX ∧ (simUpdate s inp).y = inp.refY ∧
    (simUpdate s inp).scale = 0 := by
  have hlepos : (0:ℚ) < inp.lifeEnd := by linarith
  have hs1 : smoothstep (1/100) (1/2) inp.lifeTime = 0 :=
    smoothstep_eq_zero (by norm_num) (le_of_lt hrb)
  have hr : inp.lifeTime / inp.lifeEnd ≤ 1/2 := by
    rw [div_le_iff₀ hlepos]
    nlinarith
  have hs2 : smoothstep (1/2) 1 (inp.lifeTime / inp.lifeEnd) = 0 :=
    smoothstep_eq_zero (by norm_num) hr
  unfold simUpdate
  simp only [if_pos hrb, hs1, hs2]
  refine ⟨trivial, trivial, by ring⟩

/-- C6 witness: a concrete rebirth frame. -/
theorem c6_rebirth_witness :
    (simUpdate ⟨1/4, 1/3, 1/2, 0⟩ ⟨7/10, -2/5, 0, 0, 1, 1/300, 3, 1, 0, 1/10⟩).x = 7/10 ∧
    (simUpdate ⟨1/4, 1/3, 1/2, 0⟩ ⟨7/10, -2/5, 0, 0, 1, 1/300, 3, 1, 0, 1/10⟩).y = -2/5 ∧
    (simUpdate ⟨1/4, 1/3, 1/2, 0⟩ ⟨7/10, -2/5, 0, 0, 1, 1/300, 3, 1, 0, 1/10⟩).scale = 0 :=
  c6_rebirth ⟨1/4, 1/3, 1/2, 0⟩ ⟨7/10, -2/5, 0, 0, 1, 1/300, 3, 1, 0, 1/10⟩
    (by norm_num) (by norm_num)

/-! ### Claim C5: hover-intensity smoothing -/

/-- C5: if the hover flag steps from 0 to 1 at frame 0 and holds, starting
from `hoverProgress = 0`, then after `n` frames of the recurrence
`h += (target - h) * 0.05` the value is exactly `1 - 0.95^n`; the sequence
is strictly increasing, never exceeds 1, and converges to 1
(for every positive `ε` it is eventually within `ε` of 1). -/
theorem c5_hover_smoothing :
    (∀ n : ℕ, hoverSeq n = 1 - (19/20 : ℚ) ^ n) ∧
    (∀ n : ℕ, hoverSeq n < hoverSeq (n + 1)) ∧
    (∀ n : ℕ, hoverSeq n ≤ 1) ∧
    (∀ ε : ℚ, 0 < ε → ∃ N : ℕ, ∀ n : ℕ, N ≤ n → 1 - hoverSeq n < ε) := by
  have hclosed : ∀ n : ℕ, hoverSeq n = 1 - (19/20 : ℚ) ^ n := by
    intro n
    induction n with
    | zero => simp [hoverSeq]
    | succ n ih =>
      show hoverStep 1 (hoverSeq n) = _
      rw [hoverStep, ih, pow_succ]
      ring
  refine ⟨hclosed, ?_, ?_, ?_⟩
  · intro n
    rw [hclosed n, hclosed (n + 1), pow_succ]
    have : (0:ℚ) < (19/20 : ℚ) ^ n := pow_pos (by norm_num) n
    nlinarith
  · intro n
    rw [hclosed n]
    have : (0:ℚ) ≤ (19/20 : ℚ) ^ n := pow_nonneg (by norm_num) n
    linarith
  · intro ε hε
    obtain ⟨N, hN⟩ := exists_pow_lt_of_lt_one hε (by norm_num : (19/20 : ℚ) < 1)
    refine ⟨N, fun n hn => ?_⟩
    rw [hclosed n]
    have hmono : (19/20 : ℚ) ^ n ≤ (19/20 : ℚ) ^ N :=
      pow_le_pow_of_le_one (by norm_num) (by norm_num) hn
    linarith

/-- C5 witness: the smoothing theorem instantiated at concrete inputs. -/
theorem c5_hover_smoothing_witness :
    hoverSeq 3 = 1 - (19/20 : ℚ) ^ 3 ∧
    (∃ N : ℕ, ∀ n : ℕ, N ≤ n → 1 - hoverSeq n < 1/10) :=
  ⟨c5_hover_smoothing.1 3, c5_hover_smoothing.2.2.2 (1/10) (by norm_num)⟩

/-! ### Claim C3: the silhouette mapper on constant images -/

theorem getPixelBrightness_allWhite (x y : ℕ) :
    getPixelBrightness allWhiteImage x y = 0 := by
  unfold getPixelBrightness allWhiteImage
  norm_num

theorem getPixelBrightness_allBlack (x y : ℕ) :
    getPixelBrightness allBlackImage x y = 1 := by
  unfold getPixelBrightness allBlackImage
  norm_num

/-- The all-white image has no ink pixel: every brightness is
`1 - 255/255 = 0 ≤ 0.5`. -/
theorem imageInkPoints_allWhite : imageInkPoints allWhiteImage = [] := by
  unfold imageInkPoints
  rw [List.flatMap_eq_nil_iff]
  intro y _
  have h : (gridCoords.filter
      (fun x => decide (1/2 < getPixelBrightness allWhiteImage x y))) = [] := by
    rw [List.filter_eq_nil_iff]
    intro x _
    simp [getPixelBrightness_allWhite]
  rw [h, List.map_nil]

/-- The all-black image's ink set is the full 4-px grid: membership in
`imageInkPoints allBlackImage` is exactly coordinate-wise membership in
the stepped grid `{0, 4, …, 496}`. -/
theorem imageInkPoints_allBlack (x y : ℕ) :
    (x, y) ∈ imageInkPoints allBlackImage ↔ x ∈ gridCoords ∧ y ∈ gridCoords := by
  unfold imageInkPoints
  have hfil : (fun x => decide (1/2 < getPixelBrightness allBlackImage x y)) = fun _ => true := by
    funext x
    simp [getPixelBrightness_allBlack]
    norm_num
  simp only [List.mem_flatMap, List.mem_map, List.mem_filter]
  constructor
  · rintro ⟨y', hy', x', ⟨hx', _⟩, heq⟩
    cases heq
    exact ⟨hx', hy'⟩
  · rintro ⟨hx, hy⟩
    refine ⟨y, hy, x, ⟨hx, ?_⟩, rfl⟩
    simp only [getPixelBrightness_allBlack, decide_eq_true_eq]
    norm_num

/-- Invariant of the nearest-ink fold: starting from an accumulator whose
recorded distance (if any) is the squared distance of its point from the
base, the final point is at least as close as the recorded distance and as
every scanned ink point. -/
theorem nearestFold_spec (base : Pt) :
    ∀ (inks : List (ℕ × ℕ)) (p : Pt) (o : Option ℚ),
      (∀ d, o = some d → d = distSq p base) →
      (∀ d, o = some d →
          distSq (inks.foldl (nearestAcc base) (p, o)).1 base ≤ d) ∧
      (∀ g ∈ inks,
          distSq (inks.foldl (nearestAcc base) (p, o)).1 base
            ≤ distSq ((g.1 : ℚ), (g.2 : ℚ)) base) := by
  intro inks
  induction inks with
  | nil =>
    intro p o hQ
    refine ⟨fun d hd => ?_, fun g hg => absurd hg (List.not_mem_nil g)⟩
    rw [List.foldl_nil]
    exact le_of_eq (hQ d hd).symm
  | cons g t ih =>
    intro p o hQ
    rw [List.foldl_cons]
    rcases o with _ | dOld
    · have hacc : nearestAcc base (p, none) g
          = (((g.1 : ℚ), (g.2 : ℚ)), some (distSq ((g.1 : ℚ), (g.2 : ℚ)) base)) := rfl
      rw [hacc]
      obtain ⟨ihA, ihB⟩ := ih ((g.1 : ℚ), (g.2 : ℚ)) (some (distSq ((g.1 : ℚ), (g.2 : ℚ)) base))
        (fun d hd => by injection hd with h; exact h.symm)
      refine ⟨fun d hd => absurd hd (by simp), fun g' hg' => ?_⟩
      rcases List.mem_cons.mp hg' with rfl | hmem
      · exact ihA _ rfl
      · exact ihB g' hmem
    · by_cases hlt : distSq ((g.1 : ℚ), (g.2 : ℚ)) base < dOld
      · have hacc : nearestAcc base (p, some dOld) g
            = (((g.1 : ℚ), (g.2 : ℚ)), some (distSq ((g.1 : ℚ), (g.2 : ℚ)) base)) := by
          simp only [nearestAcc]
          rw [if_pos hlt]
        rw [hacc]
        obtain ⟨ihA, ihB⟩ := ih ((g.1 : ℚ), (g.2 : ℚ)) (some (distSq ((g.1 : ℚ), (g.2 : ℚ)) base))
          (fun d hd => by injection hd with h; exact h.symm)
        have hres := ihA _ rfl
        refine ⟨fun d hd => ?_, fun g' hg' => ?_⟩
        · injection hd with h
          subst h
          exact le_of_lt (lt_of_le_of_lt hres hlt)
        · rcases List.mem_cons.mp hg' with rfl | hmem
          · exact hres
          · exact ihB g' hmem
      · have hacc : nearestAcc base (p, some dOld) g = (p, some dOld) := by
          simp only [nearestAcc]
          rw [if_neg hlt]
        rw [hacc]
        obtain ⟨ihA, ihB⟩ := ih p (some dOld) hQ
        refine ⟨fun d hd => ?_, fun g' hg' => ?_⟩
        · injection hd with h
          subst h
          exact ihA dOld rfl
        · rcases List.mem_cons.mp hg' with rfl | hmem
          · exact le_trans (ihA dOld rfl) (le_of_not_lt hlt)
          · exact ihB g' hmem

/-- The point returned by the nearest-ink scan is at least as close to the
base point as every ink point. -/
theorem nearestInk_le (base : Pt) (inks : List (ℕ × ℕ)) (g : ℕ × ℕ)
    (hg : g ∈ inks) :
    distSq (nearestInk base inks) base ≤ distSq ((g.1 : ℚ), (g.2 : ℚ)) base :=
  (nearestFold_spec base inks base none (fun d hd => Option.noConfusion hd)).2 g hg

/-- Every coordinate in `[0, 500)` is within `[0, 4)` of a 4-px grid
coordinate. -/
theorem near_gridCoord {t : ℚ} (h0 : 0 ≤ t) (h1 : t < 500) :
    ∃ k : ℕ, k ∈ gridCoords ∧ 0 ≤ t - k ∧ t - k < 4 := by
  have hfl0 : 0 ≤ ⌊t / 4⌋ := Int.floor_nonneg.mpr (by positivity)
  have hcast : ((4 * ⌊t / 4⌋.toNat : ℕ) : ℚ) = 4 * ((⌊t / 4⌋ : ℤ) : ℚ) := by
    have hz : ((4 * ⌊t / 4⌋.toNat : ℕ) : ℤ) = 4 * ⌊t / 4⌋ := by
      push_cast
      omega
    exact_mod_cast hz
  have hlo : ((⌊t / 4⌋ : ℤ) : ℚ) ≤ t / 4 := Int.floor_le (t / 4)
  have hhi : t / 4 < ((⌊t / 4⌋ : ℤ) : ℚ) + 1 := Int.lt_floor_add_one (t / 4)
  refine ⟨4 * ⌊t / 4⌋.toNat, ?_, ?_, ?_⟩
  · have hlt : ⌊t / 4⌋ < 125 := by
      have ht : t / 4 < 125 := by
        rw [div_lt_iff₀ (by norm_num : (0:ℚ) < 4)]
        linarith
      have : ((⌊t / 4⌋ : ℤ) : ℚ) < 125 := lt_of_le_of_lt hlo ht
      exact_mod_cast this
    have htn : ⌊t / 4⌋.toNat < 125 := by omega
    exact List.mem_map.mpr ⟨⌊t / 4⌋.toNat, List.mem_range.mpr htn, rfl⟩
  · rw [hcast]
    linarith
  · rw [hcast]
    linarith

/-- C3 counterexample: the claim asserts that the ALL-WHITE 500×500 image
(red channel 255 everywhere) yields an ink set covering the full 4-px
grid.  In fact `getPixelBrightness` returns `1 - 255/255 = 0` everywhere,
which does not exceed the `0.5` threshold, so the ink set is empty: in
particular the grid point `(0, 0)` is not in it, and every base point is
mapped to itself rather than to a grid point. -/
theorem c3_counterexample :
    imageInkPoints allWhiteImage = [] ∧
    (0, 0) ∉ imageInkPoints allWhiteImage ∧
    (0 : ℕ) ∈ gridCoords := by
  refine ⟨imageInkPoints_allWhite, ?_, ?_⟩
  · rw [imageInkPoints_allWhite]
    exact List.not_mem_nil _
  · exact List.mem_map.mpr ⟨0, List.mem_range.mpr (by norm_num), rfl⟩

/-- C3 (amended): it is the all-BLACK 500×500 image (red channel 0
everywhere, brightness `1 - 0/255 = 1 > 0.5`) whose ink set covers the
full grid stepped at 4 px, and for it every base point in
`[0,500) × [0,500)` is assigned a target within a 4-px-grid neighborhood
(squared Euclidean distance < 32, i.e. distance < 4√2).  For the all-white
image of the claim the ink set is empty and `createImagePoints` falls back
to assigning every base point to itself. -/
theorem c3_ink_and_nearest (b : Pt)
    (hx0 : 0 ≤ b.1) (hx1 : b.1 < 500) (hy0 : 0 ≤ b.2) (hy1 : b.2 < 500) :
    (∀ x y : ℕ, (x, y) ∈ imageInkPoints allBlackImage ↔
        x ∈ gridCoords ∧ y ∈ gridCoords) ∧
    distSq (nearestInk b (imageInkPoints allBlackImage)) b < 32 ∧
    nearestInk b (imageInkPoints allWhiteImage) = b := by
  refine ⟨imageInkPoints_allBlack, ?_, ?_⟩
  · obtain ⟨kx, hkx, hkx0, hkx4⟩ := near_gridCoord hx0 hx1
    obtain ⟨ky, hky, hky0, hky4⟩ := near_gridCoord hy0 hy1
    have hmem : ((kx, ky) : ℕ × ℕ) ∈ imageInkPoints allBlackImage :=
      (imageInkPoints_allBlack kx ky).mpr ⟨hkx, hky⟩
    have hle := nearestInk_le b (imageInkPoints allBlackImage) (kx, ky) hmem
    have hgd : distSq (((kx : ℚ), (ky : ℚ))) b < 32 := by
      unfold distSq
      simp only
      nlinarith
    exact lt_of_le_of_lt hle hgd
  · rw [imageInkPoints_allWhite]
    rfl

/-- C3 witness: the amended statement at a concrete base point. -/
theorem c3_ink_and_nearest_witness :
    (∀ x y : ℕ, (x, y) ∈ imageInkPoints allBlackImage ↔
        x ∈ gridCoords ∧ y ∈ gridCoords) ∧
    distSq (nearestInk (247/2, 100) (imageInkPoints allBlackImage)) (247/2, 100) < 32 ∧
    nearestInk (247/2, 100) (imageInkPoints allWhiteImage) = (247/2, 100) :=
  c3_ink_and_nearest (247/2, 100) (by norm_num) (by norm_num) (by norm_num) (by norm_num)

/-! ### Claims C8 and C9: the ping-pong buffer discipline -/

/-- The two render-target names always denote distinct physical buffers:
they start distinct and the swap permutes them. -/
theorem stateAt_rt1_ne_rt2 (n : ℕ) : (stateAt n).rt1 ≠ (stateAt n).rt2 := by
  induction n with
  | zero => simp [stateAt, initRenderState]
  | succ n ih =>
    show (updateFrame n (stateAt n)).2.rt1 ≠ (updateFrame n (stateAt n)).2.rt2
    simpa [updateFrame] using ih.symm

/-- C8: in every frame `n ≥ 1` the simulation pass reads exactly the buffer
the simulation pass of frame `n-1` wrote; in every frame the particle
renderer reads the buffer the simulation pass of that frame wrote; and in
every frame the buffer the simulation pass reads is distinct from the one
it writes. -/
theorem c8_ping_pong (n : ℕ) :
    (1 ≤ n →
      (eventsAt n).simReadTex = SimTex.target ((eventsAt (n - 1)).simWriteBuf)) ∧
    (eventsAt n).rendererReadBuf = (eventsAt n).simWriteBuf ∧
    (eventsAt n).simReadTex ≠ SimTex.target ((eventsAt n).simWriteBuf) := by
  refine ⟨?_, rfl, ?_⟩
  · intro hn
    obtain ⟨m, rfl⟩ : ∃ m, n = m + 1 := ⟨n - 1, (Nat.succ_pred_eq_of_pos hn).symm⟩
    simp [eventsAt, updateFrame, stateAt]
  · intro h
    have : (stateAt n).rt1 = (stateAt n).rt2 := by
      simpa [eventsAt, updateFrame] using h
    exact stateAt_rt1_ne_rt2 n this

/-- C8 witness: frame 1. -/
theorem c8_ping_pong_witness :
    (eventsAt 1).simReadTex = SimTex.target ((eventsAt 0).simWriteBuf) ∧
    (eventsAt 1).rendererReadBuf = (eventsAt 1).simWriteBuf ∧
    (eventsAt 1).simReadTex ≠ SimTex.target ((eventsAt 1).simWriteBuf) :=
  ⟨(c8_ping_pong 1).1 (by norm_num), (c8_ping_pong 1).2.1, (c8_ping_pong 1).2.2⟩

/-- C9: although `createSimulation` installs the base-point `DataTexture`
as the simulation shader's `uPosition` (`initRenderState.simUniform`),
no simulation pass ever samples it: every `update` call rebinds
`uPosition` to `rt1`'s texture before rendering.  In particular the first
simulation pass (frame 0) reads physical buffer `A`, which has never been
written at that moment, so its input is the all-zero field — every particle
at position `(0,0)` with `scale = 0` and `velocity = 0` (`BufContent.uninit`)
— and not the sampled base positions. -/
theorem c9_datatexture_never_sampled :
    initRenderState.simUniform = SimTex.dataTexture ∧
    (∀ n : ℕ, (eventsAt n).simReadTex ≠ SimTex.dataTexture) ∧
    (eventsAt 0).simReadTex = SimTex.target Buf.A ∧
    (eventsAt 0).simReadContent = BufContent.uninit := by
  refine ⟨rfl, fun n => ?_, rfl, rfl⟩
  simp [eventsAt, updateFrame]

/-! ### Claims C1, C7, C10: the Poisson disk sampler -/

theorem distSq_comm (p q : Pt) : distSq p q = distSq q p := by
  unfold distSq
  ring

/-- Two coordinates in the same floor-cell are closer than the cell
size. -/
theorem abs_sub_lt_of_floor_div_eq {c x y : ℚ} (hc : 0 < c)
    (h : ⌊x / c⌋ = ⌊y / c⌋) : |x - y| < c := by
  have hax : ((⌊x / c⌋ : ℤ) : ℚ) ≤ x / c := Int.floor_le _
  have hbx : x / c < ((⌊x / c⌋ : ℤ) : ℚ) + 1 := Int.lt_floor_add_one _
  have hay : ((⌊y / c⌋ : ℤ) : ℚ) ≤ y / c := Int.floor_le _
  have hby : y / c < ((⌊y / c⌋ : ℤ) : ℚ) + 1 := Int.lt_floor_add_one _
  have hx : x = x / c * c := (div_mul_cancel₀ x (ne_of_gt hc)).symm
  have hy : y = y / c * c := (div_mul_cancel₀ y (ne_of_gt hc)).symm
  have hcast : ((⌊x / c⌋ : ℤ) : ℚ) = ((⌊y / c⌋ : ℤ) : ℚ) := by exact_mod_cast h
  rw [abs_lt]
  constructor <;> nlinarith

/-- Coordinates closer than two cell sizes land in floor-cells at most two
apart. -/
theorem abs_floor_div_sub_le_two {c x y : ℚ} (hc : 0 < c)
    (h : |x - y| < 2 * c) : |⌊x / c⌋ - ⌊y / c⌋| ≤ 2 := by
  obtain ⟨h1, h2⟩ := abs_lt.mp h
  have hax : ((⌊x / c⌋ : ℤ) : ℚ) ≤ x / c := Int.floor_le _
  have hbx : x / c < ((⌊x / c⌋ : ℤ) : ℚ) + 1 := Int.lt_floor_add_one _
  have hay : ((⌊y / c⌋ : ℤ) : ℚ) ≤ y / c := Int.floor_le _
  have hby : y / c < ((⌊y / c⌋ : ℤ) : ℚ) + 1 := Int.lt_floor_add_one _
  have hx : x = x / c * c := (div_mul_cancel₀ x (ne_of_gt hc)).symm
  have hy : y = y / c * c := (div_mul_cancel₀ y (ne_of_gt hc)).symm
  rw [abs_le]
  constructor
  · by_contra hcon
    push_neg at hcon
    have hz : ⌊y / c⌋ ≥ ⌊x / c⌋ + 3 := by omega
    have hq : ((⌊y / c⌋ : ℤ) : ℚ) ≥ ((⌊x / c⌋ : ℤ) : ℚ) + 3 := by exact_mod_cast hz
    nlinarith
  · by_contra hcon
    push_neg at hcon
    have hz : ⌊x / c⌋ ≥ ⌊y / c⌋ + 3 := by omega
    have hq : ((⌊x / c⌋ : ℤ) : ℚ) ≥ ((⌊y / c⌋ : ℤ) : ℚ) + 3 := by exact_mod_cast hz
    nlinarith

/-- The 5×5 window contains every offset with both components in
`[-2, 2]`. -/
theorem mem_searchOffsets {a b : ℤ} (ha : |a| ≤ 2) (hb : |b| ≤ 2) :
    (a, b) ∈ searchOffsets := by
  obtain ⟨ha1, ha2⟩ := abs_le.mp ha
  obtain ⟨hb1, hb2⟩ := abs_le.mp hb
  interval_cases a <;> interval_cases b <;> decide

/-- Squared distance below `d²` bounds each coordinate difference below
`d`. -/
theorem coord_abs_lt_of_distSq_lt {p q : Pt} {d : ℚ} (hd : 0 ≤ d)
    (h : distSq p q < d ^ 2) : |p.1 - q.1| < d ∧ |p.2 - q.2| < d := by
  unfold distSq at h
  constructor
  · exact abs_lt_of_sq_lt_sq (by nlinarith [sq_nonneg (p.2 - q.2)]) hd
  · exact abs_lt_of_sq_lt_sq (by nlinarith [sq_nonneg (p.1 - q.1)]) hd

/-- An in-domain point's cell indices are inside the grid. -/
theorem grid_indices_range {cfg : PDSConfig} (hWF : cfg.WF) {p : Pt}
    (hp : inDomain cfg p) :
    (0 ≤ gridX cfg p ∧ gridX cfg p < (cfg.gridWidth : ℤ)) ∧
    (0 ≤ gridY cfg p ∧ gridY cfg p < (cfg.gridHeight : ℤ)) := by
  obtain ⟨hW, hH, _, hcell, _, _⟩ := hWF
  obtain ⟨hx0, hx1, hy0, hy1⟩ := hp
  have hkey : ∀ t s : ℚ, 0 ≤ t → t < s → 0 < s →
      0 ≤ ⌊t / cfg.cellSize⌋ ∧ ⌊t / cfg.cellSize⌋ < ((⌈s / cfg.cellSize⌉.toNat : ℕ) : ℤ) := by
    intro t s ht0 hts hs
    have h0 : 0 ≤ ⌊t / cfg.cellSize⌋ :=
      Int.floor_nonneg.mpr (div_nonneg ht0 (le_of_lt hcell))
    have hceil : 0 < ⌈s / cfg.cellSize⌉ :=
      Int.ceil_pos.mpr (div_pos hs hcell)
    have htn : ((⌈s / cfg.cellSize⌉.toNat : ℕ) : ℤ) = ⌈s / cfg.cellSize⌉ :=
      Int.toNat_of_nonneg (le_of_lt hceil)
    refine ⟨h0, ?_⟩
    rw [htn]
    have h1 : ((⌊t / cfg.cellSize⌋ : ℤ) : ℚ) ≤ t / cfg.cellSize := Int.floor_le _
    have h2 : t / cfg.cellSize < s / cfg.cellSize := by gcongr
    have h3 : s / cfg.cellSize ≤ ((⌈s / cfg.cellSize⌉ : ℤ) : ℚ) := Int.le_ceil _
    have : ((⌊t / cfg.cellSize⌋ : ℤ) : ℚ) < ((⌈s / cfg.cellSize⌉ : ℤ) : ℚ) := by
      linarith
    exact_mod_cast this
  exact ⟨hkey p.1 cfg.shapeW hx0 hx1 hW, hkey p.2 cfg.shapeH hy0 hy1 hH⟩

/-- A candidate that passes `isValidPoint` is in-domain. -/
theorem isValid_inDomain {cfg : PDSConfig} {st : PDSState} {p : Pt}
    (hv : isValidPoint cfg st p = true) : inDomain cfg p := by
  unfold isValidPoint at hv
  split_ifs at hv with h
  push_neg at h
  exact h

/-- A candidate that passes `isValidPoint` passes every window cell. -/
theorem isValid_cells {cfg : PDSConfig} {st : PDSState} {p : Pt}
    (hv : isValidPoint cfg st p = true) :
    ∀ o ∈ searchOffsets, cellOk cfg st p o = true := by
  unfold isValidPoint at hv
  split_ifs at hv
  exact List.all_eq_true.mp hv

/-- What a passing window cell says about its occupant. -/
theorem cellOk_spec {cfg : PDSConfig} {st : PDSState} {p : Pt} {o : ℤ × ℤ}
    (hok : cellOk cfg st p o = true)
    (hrange : 0 ≤ gridX cfg p + o.1 ∧ gridX cfg p + o.1 < (cfg.gridWidth : ℤ) ∧
      0 ≤ gridY cfg p + o.2 ∧ gridY cfg p + o.2 < (cfg.gridHeight : ℤ))
    {nb : Pt} (hnb : st.grid (gridX cfg p + o.1) (gridY cfg p + o.2) = some nb) :
    cfg.minDistance ^ 2 ≤ distSq p nb := by
  unfold cellOk at hok
  rw [if_pos hrange, hnb] at hok
  exact of_decide_eq_true hok

/-- Core geometric fact: a candidate that passes the bounded 5×5-cell scan
is at squared distance at least `minDistance²` from EVERY accepted point,
not only from those the window inspects — points outside the window are
more than `2·cellSize ≥ minDistance` away on one axis. -/
theorem isValid_far {cfg : PDSConfig} {st : PDSState} (hWF : cfg.WF)
    (hinv : PDSInv cfg st) {c : Pt} (hv : isValidPoint cfg st c = true) :
    ∀ p ∈ st.points, cfg.minDistance ^ 2 ≤ distSq c p := by
  intro p hp
  by_contra hlt
  push_neg at hlt
  obtain ⟨hW, hH, hdMin, hcell, hc2, hc1⟩ := hWF
  have hdomP := hinv.dom p hp
  have hown := hinv.own p hp
  obtain ⟨hcx, hcy⟩ := coord_abs_lt_of_distSq_lt (le_of_lt hdMin) hlt
  have hgx : |gridX cfg c - gridX cfg p| ≤ 2 :=
    abs_floor_div_sub_le_two hcell (lt_of_lt_of_le hcx hc1)
  have hgy : |gridY cfg c - gridY cfg p| ≤ 2 :=
    abs_floor_div_sub_le_two hcell (lt_of_lt_of_le hcy hc1)
  have ho : (gridX cfg p - gridX cfg c, gridY cfg p - gridY cfg c) ∈ searchOffsets := by
    apply mem_searchOffsets
    · rw [abs_sub_comm]
      exact hgx
    · rw [abs_sub_comm]
      exact hgy
  have hok := isValid_cells hv _ ho
  obtain ⟨hrx, hry⟩ := grid_indices_range ⟨hW, hH, hdMin, hcell, hc2, hc1⟩ hdomP
  have hxx : gridX cfg c + (gridX cfg p - gridX cfg c) = gridX cfg p := by ring
  have hyy : gridY cfg c + (gridY cfg p - gridY cfg c) = gridY cfg p := by ring
  have hfar := cellOk_spec hok
    (by rw [hxx, hyy]; exact ⟨hrx.1, hrx.2, hry.1, hry.2⟩)
    (by rw [hxx, hyy]; exact hown)
  exact absurd hfar (not_le.mpr hlt)

/-- `addPoint` preserves the `fill` invariant when the added candidate
passed `isValidPoint`.  Note in particular that the candidate's cell is
empty: an occupant of the same cell would be strictly closer than
`minDistance` (`2·cellSize² ≤ minDistance²`) and would have failed the
scan, so the grid write never overwrites an accepted point. -/
theorem inv_addPoint {cfg : PDSConfig} {st : PDSState} (hWF : cfg.WF)
    (hinv : PDSInv cfg st) {c : Pt} (hv : isValidPoint cfg st c = true) :
    PDSInv cfg (addPoint cfg st c) := by
  have hdomC : inDomain cfg c := isValid_inDomain hv
  have hfar := isValid_far hWF hinv hv
  obtain ⟨hW, hH, hdMin, hcell, hc2, hc1⟩ := hWF
  have hcellne : ∀ p ∈ st.points,
      ¬(gridX cfg p = gridX cfg c ∧ gridY cfg p = gridY cfg c) := by
    rintro p hp ⟨hgx, hgy⟩
    have h1 : |p.1 - c.1| < cfg.cellSize := by
      exact abs_sub_lt_of_floor_div_eq hcell hgx
    have h2 : |p.2 - c.2| < cfg.cellSize := by
      exact abs_sub_lt_of_floor_div_eq hcell hgy
    have hclose : distSq c p < cfg.minDistance ^ 2 := by
      have hx2 : (p.1 - c.1) ^ 2 < cfg.cellSize ^ 2 := by
        rw [← sq_abs]
        exact pow_lt_pow_left h1 (abs_nonneg _) (by norm_num)
      have hy2 : (p.2 - c.2) ^ 2 < cfg.cellSize ^ 2 := by
        rw [← sq_abs]
        exact pow_lt_pow_left h2 (abs_nonneg _) (by norm_num)
      unfold distSq
      nlinarith
    exact absurd (hfar p hp) (not_le.mpr hclose)
  constructor
  · intro p hp
    rcases List.mem_append.mp hp with hold | hnew
    · exact hinv.dom p hold
    · rw [List.mem_singleton.mp hnew]
      exact hdomC
  · intro p hp
    rcases List.mem_append.mp hp with hold | hnew
    · show (if _ ∧ _ then some c else _) = some p
      rw [if_neg (hcellne p hold)]
      exact hinv.own p hold
    · rw [List.mem_singleton.mp hnew]
      show (if _ ∧ _ then some c else _) = some c
      rw [if_pos ⟨rfl, rfl⟩]
  · intro gx gy p hg
    by_cases h : gx = gridX cfg c ∧ gy = gridY cfg c
    · rw [show (addPoint cfg st c).grid gx gy
          = (if gx = gridX cfg c ∧ gy = gridY cfg c then some c else st.grid gx gy)
          from rfl, if_pos h] at hg
      injection hg with hg
      rw [← hg]
      exact List.mem_append_right _ (List.mem_singleton_self c)
    · rw [show (addPoint cfg st c).grid gx gy
          = (if gx = gridX cfg c ∧ gy = gridY cfg c then some c else st.grid gx gy)
          from rfl, if_neg h] at hg
      exact List.mem_append_left _ (hinv.back gx gy p hg)
  · show (st.points ++ [c]).Pairwise _
    rw [List.pairwise_append]
    refine ⟨hinv.sep, List.pairwise_singleton _ _, ?_⟩
    intro p hp q hq
    rw [List.mem_singleton.mp hq, distSq_comm]
    exact hfar p hp

/-- A list with no duplicates whose members are all equal has at most one
entry. -/
theorem length_le_one_of_nodup_allEq {α : Type} {l : List α} (hnd : l.Nodup)
    (h : ∀ a ∈ l, ∀ b ∈ l, a = b) : l.length ≤ 1 := by
  cases l with
  | nil => simp
  | cons a t =>
    cases t with
    | nil => simp
    | cons b u =>
      exfalso
      have hab : a = b := h a (by simp) b (by simp)
      rw [List.nodup_cons] at hnd
      exact hnd.1 (hab ▸ List.mem_cons_self b u)

/-- Accepted points are pairwise distinct (their mutual squared distance
is at least `minDistance² > 0`). -/
theorem points_nodup {cfg : PDSConfig} {st : PDSState} (hdMin : 0 < cfg.minDistance)
    (hinv : PDSInv cfg st) : st.points.Nodup := by
  refine hinv.sep.imp ?_
  intro p q hpq heq
  subst heq
  have hz : distSq p p = 0 := by
    unfold distSq
    ring
  rw [hz] at hpq
  nlinarith

/-- Each grid cell holds at most one accepted point: the spatial-hash
registration is injective on accepted points. -/
theorem cell_count_le_one {cfg : PDSConfig} {st : PDSState} (hWF : cfg.WF)
    (hinv : PDSInv cfg st) (gx gy : ℤ) :
    (st.points.filter
      (fun p => decide (gridX cfg p = gx ∧ gridY cfg p = gy))).length ≤ 1 := by
  apply length_le_one_of_nodup_allEq
  · exact (points_nodup hWF.2.2.1 hinv).filter _
  · intro a ha b hb
    obtain ⟨ha1, ha2⟩ := List.mem_filter.mp ha
    obtain ⟨hb1, hb2⟩ := List.mem_filter.mp hb
    obtain ⟨hax, hay⟩ := of_decide_eq_true ha2
    obtain ⟨hbx, hby⟩ := of_decide_eq_true hb2
    have h1 := hinv.own a ha1
    have h2 := hinv.own b hb1
    rw [hax, hay] at h1
    rw [hbx, hby] at h2
    rw [h1] at h2
    injection h2

/-- The accepted point count never exceeds the number of grid cells:
registration maps the points without duplicates into the
`gridWidth × gridHeight` cell rectangle. -/
theorem points_card_le {cfg : PDSConfig} {st : PDSState} (hWF : cfg.WF)
    (hinv : PDSInv cfg st) :
    st.points.length ≤ cfg.gridWidth * cfg.gridHeight := by
  classical
  have hnd := points_nodup hWF.2.2.1 hinv
  have hmapnd : (st.points.map (fun p => (gridX cfg p, gridY cfg p))).Nodup := by
    apply List.Nodup.map_on ?_ hnd
    intro x hx y hy hxy
    have e1 : gridX cfg x = gridX cfg y := congrArg Prod.fst hxy
    have e2 : gridY cfg x = gridY cfg y := congrArg Prod.snd hxy
    have h1 := hinv.own x hx
    have h2 := hinv.own y hy
    rw [e1, e2] at h1
    rw [h1] at h2
    injection h2
  have hsub : (st.points.map (fun p => (gridX cfg p, gridY cfg p))).toFinset ⊆
      Finset.Ico (0:ℤ) (cfg.gridWidth : ℤ) ×ˢ Finset.Ico (0:ℤ) (cfg.gridHeight : ℤ) := by
    intro z hz
    obtain ⟨p, hp, hpz⟩ := List.mem_map.mp (List.mem_toFinset.mp hz)
    obtain ⟨hrx, hry⟩ := grid_indices_range hWF (hinv.dom p hp)
    rw [← hpz]
    rw [Finset.mem_product, Finset.mem_Ico, Finset.mem_Ico]
    exact ⟨⟨hrx.1, hrx.2⟩, ⟨hry.1, hry.2⟩⟩
  calc st.points.length
      = (st.points.map (fun p => (gridX cfg p, gridY cfg p))).length :=
        (List.length_map _ _).symm
    _ = (st.points.map (fun p => (gridX cfg p, gridY cfg p))).toFinset.card :=
        (List.toFinset_card_of_nodup hmapnd).symm
    _ ≤ (Finset.Ico (0:ℤ) (cfg.gridWidth : ℤ) ×ˢ Finset.Ico (0:ℤ) (cfg.gridHeight : ℤ)).card :=
        Finset.card_le_card hsub
    _ = cfg.gridWidth * cfg.gridHeight := by
        rw [Finset.card_product, Int.card_Ico, Int.card_Ico]
        simp

/-- Dropping a frontier entry does not disturb the invariant (none of its
clauses mentions `activeList`). -/
theorem inv_eraseActive {cfg : PDSConfig} {st : PDSState} (hinv : PDSInv cfg st)
    (ri : ℕ) : PDSInv cfg { st with activeList := st.activeList.eraseIdx ri } :=
  ⟨hinv.dom, hinv.own, hinv.back, hinv.sep⟩

/-- The `fill` loop preserves the invariant, for any oracles and fuel. -/
theorem fillLoop_inv {cfg : PDSConfig} (hWF : cfg.WF)
    (idxOracle : ℕ → ℕ) (offOracle : ℕ → ℕ → Pt) :
    ∀ (fuel n : ℕ) (st : PDSState), PDSInv cfg st →
      PDSInv cfg (fillLoop cfg idxOracle offOracle fuel n st) := by
  intro fuel
  induction fuel with
  | zero => exact fun n st h => h
  | succ fuel ih =>
    intro n st h
    rw [fillLoop]
    by_cases hemp : st.activeList.isEmpty
    · rw [if_pos hemp]
      exact h
    · rw [if_neg hemp]
      rcases hfind : (((List.range cfg.maxTries).map
          (fun i => ((st.activeList.getD (idxOracle n % st.activeList.length) ((0:ℚ), (0:ℚ))).1
              + (offOracle n i).1,
            (st.activeList.getD (idxOracle n % st.activeList.length) ((0:ℚ), (0:ℚ))).2
              + (offOracle n i).2))).find?
          (fun c => isValidPoint cfg st c)) with _ | c
      · simp only [hfind]
        exact ih (n + 1) _ (inv_eraseActive h _)
      · simp only [hfind]
        exact ih (n + 1) _ (inv_addPoint hWF h (List.find?_some hfind))

/-- Termination measure: starting from any invariant state, fuel
`2·(cells − points) + frontier` suffices to empty the frontier — each
iteration either accepts a point (filling a fresh cell, which can happen
at most `cells − points` more times) and grows the frontier by one, or
shrinks the frontier by one. -/
theorem fillLoop_frontier_empties {cfg : PDSConfig} (hWF : cfg.WF)
    (idxOracle : ℕ → ℕ) (offOracle : ℕ → ℕ → Pt) :
    ∀ (fuel n : ℕ) (st : PDSState), PDSInv cfg st →
      2 * (cfg.gridWidth * cfg.gridHeight - st.points.length) + st.activeList.length ≤ fuel →
      (fillLoop cfg idxOracle offOracle fuel n st).activeList = [] := by
  intro fuel
  induction fuel with
  | zero =>
    intro n st hinv hm
    have : st.activeList.length = 0 := by omega
    exact List.length_eq_zero.mp this
  | succ fuel ih =>
    intro n st hinv hm
    rw [fillLoop]
    by_cases hemp : st.activeList.isEmpty
    · rw [if_pos hemp]
      exact List.isEmpty_iff.mp hemp
    · rw [if_neg hemp]
      have hne : st.activeList ≠ [] := fun h => hemp (by rw [h]; rfl)
      have hlen : 0 < st.activeList.length := List.length_pos.mpr hne
      rcases hfind : (((List.range cfg.maxTries).map
          (fun i => ((st.activeList.getD (idxOracle n % st.activeList.length) ((0:ℚ), (0:ℚ))).1
              + (offOracle n i).1,
            (st.activeList.getD (idxOracle n % st.activeList.length) ((0:ℚ), (0:ℚ))).2
              + (offOracle n i).2))).find?
          (fun c => isValidPoint cfg st c)) with _ | c
      · simp only [hfind]
        apply ih (n + 1) _ (inv_eraseActive hinv _)
        have hri : idxOracle n % st.activeList.length < st.activeList.length :=
          Nat.mod_lt _ hlen
        have herase : (st.activeList.eraseIdx (idxOracle n % st.activeList.length)).length
            = st.activeList.length - 1 := by
          rw [List.length_eraseIdx]
          rw [if_pos hri]
        simp only [herase]
        omega
      · simp only [hfind]
        have hinv2 := inv_addPoint hWF hinv (List.find?_some hfind)
        apply ih (n + 1) _ hinv2
        have hple := points_card_le hWF hinv2
        have h1 : (addPoint cfg st c).points.length = st.points.length + 1 := by
          simp [addPoint]
        have h2 : (addPoint cfg st c).activeList.length = st.activeList.length + 1 := by
          simp [addPoint]
        rw [h1, h2]
        rw [h1] at hple
        omega

/-- The state after seeding `fill` with an in-domain first point satisfies
the invariant. -/
theorem inv_start {cfg : PDSConfig} {first : Pt} (hfirst : inDomain cfg first) :
    PDSInv cfg (addPoint cfg initPDSState first) := by
  constructor
  · intro p hp
    rw [show (addPoint cfg initPDSState first).points = [first] from rfl] at hp
    rw [List.mem_singleton.mp hp]
    exact hfirst
  · intro p hp
    rw [show (addPoint cfg initPDSState first).points = [first] from rfl] at hp
    rw [List.mem_singleton.mp hp]
    show (if _ ∧ _ then some first else none) = some first
    rw [if_pos ⟨rfl, rfl⟩]
  · intro gx gy p hg
    rw [show (addPoint cfg initPDSState first).grid gx gy
        = (if gx = gridX cfg first ∧ gy = gridY cfg first then some first else none)
        from rfl] at hg
    split_ifs at hg
    injection hg with hg
    rw [show (addPoint cfg initPDSState first).points = [first] from rfl, ← hg]
    exact List.mem_singleton_self first
  · rw [show (addPoint cfg initPDSState first).points = [first] from rfl]
    exact List.pairwise_singleton _ _

theorem cfg500_WF : cfg500.WF := by
  unfold PDSConfig.WF cfg500
  norm_num

theorem cfgTest_WF : cfgTest.WF := by
  unfold PDSConfig.WF cfgTest
  norm_num

/-- Once the frontier is empty the loop is a fixed point: `fill` has
terminated. -/
theorem fillLoop_of_empty {cfg : PDSConfig} (idxOracle : ℕ → ℕ)
    (offOracle : ℕ → ℕ → Pt) (fuel n : ℕ) (st : PDSState)
    (h : st.activeList = []) : fillLoop cfg idxOracle offOracle fuel n st = st := by
  cases fuel with
  | zero => rfl
  | succ fuel =>
    rw [fillLoop, if_pos (List.isEmpty_iff.mpr h)]

/-- C1: for every run of `fill` (any well-formed configuration — in
particular the source's `cellSize = minDistance/√2` — any in-domain seed
point, any random choices, any number of loop iterations), every pair of
distinct accepted points is at squared Euclidean distance at least
`minDistance²` (equivalently, distance at least `minDistance`), even
though the acceptance scan inspects only the 5×5-cell window of the
spatial hash: `minDistance ≤ 2·cellSize` puts every point closer than
`minDistance` inside the window, and `2·cellSize² ≤ minDistance²` keeps
every cell at most single-occupancy so no point is ever hidden by a grid
overwrite. -/
theorem c1_min_distance (cfg : PDSConfig) (hWF : cfg.WF) (first : Pt)
    (hfirst : inDomain cfg first) (idxOracle : ℕ → ℕ) (offOracle : ℕ → ℕ → Pt)
    (fuel : ℕ) :
    ∀ p ∈ fill cfg first idxOracle offOracle fuel,
      ∀ q ∈ fill cfg first idxOracle offOracle fuel,
        p ≠ q → cfg.minDistance ^ 2 ≤ distSq p q := by
  have hinv := fillLoop_inv hWF idxOracle offOracle fuel 0 _ (inv_start hfirst)
  have hsym : Symmetric (fun p q : Pt => cfg.minDistance ^ 2 ≤ distSq p q) := by
    intro p q h
    rwa [distSq_comm]
  exact fun p hp q hq hne => hinv.sep.forall hsym hp hq hne

/-- C1 witness: the separation theorem instantiated on a concrete run of
`fill` on the small test configuration (seed `(1,1)`, constant oracles,
one loop iteration), with both hypotheses discharged. -/
theorem c1_min_distance_witness :
    cfgTest.WF ∧ inDomain cfgTest (1, 1) ∧
    (∀ p ∈ fill cfgTest (1, 1) (fun _ => 0) (fun _ _ => (5/2, 0)) 1,
      ∀ q ∈ fill cfgTest (1, 1) (fun _ => 0) (fun _ _ => (5/2, 0)) 1,
        p ≠ q → cfgTest.minDistance ^ 2 ≤ distSq p q) :=
  ⟨cfgTest_WF, by unfold inDomain cfgTest; norm_num,
   c1_min_distance cfgTest cfgTest_WF (1, 1)
     (by unfold inDomain cfgTest; norm_num)
     (fun _ => 0) (fun _ _ => (5/2, 0)) 1⟩

/-- C7: `fill` terminates for every well-formed domain and spacing: with
fuel `2·gridWidth·gridHeight` the loop always reaches the empty frontier
(after which it is a fixed point, `fillLoop_of_empty`) — each iteration
either accepts a point into a previously empty grid cell and grows the
frontier by one, or removes one frontier entry, and at most
`gridWidth·gridHeight` points can ever be accepted. -/
theorem c7_fill_terminates (cfg : PDSConfig) (hWF : cfg.WF) (first : Pt)
    (hfirst : inDomain cfg first) (idxOracle : ℕ → ℕ) (offOracle : ℕ → ℕ → Pt) :
    (fillLoop cfg idxOracle offOracle (2 * (cfg.gridWidth * cfg.gridHeight)) 0
      (addPoint cfg initPDSState first)).activeList = [] := by
  apply fillLoop_frontier_empties hWF idxOracle offOracle _ _ _ (inv_start hfirst)
  have h1 : 0 < cfg.gridWidth := by
    unfold PDSConfig.gridWidth
    have := Int.ceil_pos.mpr (div_pos hWF.1 hWF.2.2.2.1)
    omega
  have h2 : 0 < cfg.gridHeight := by
    unfold PDSConfig.gridHeight
    have := Int.ceil_pos.mpr (div_pos hWF.2.1 hWF.2.2.2.1)
    omega
  have hG : 1 ≤ cfg.gridWidth * cfg.gridHeight := Nat.mul_pos h1 h2
  have hp1 : (addPoint cfg initPDSState first).points.length = 1 := rfl
  have ha1 : (addPoint cfg initPDSState first).activeList.length = 1 := rfl
  rw [hp1, ha1]
  omega

/-- C7 witness: the termination bound instantiated on the small test
configuration and concrete oracles. -/
theorem c7_fill_terminates_witness :
    (fillLoop cfgTest (fun _ => 0) (fun _ _ => (5/2, 0))
      (2 * (cfgTest.gridWidth * cfgTest.gridHeight)) 0
      (addPoint cfgTest initPDSState (1, 1))).activeList = [] :=
  c7_fill_terminates cfgTest cfgTest_WF (1, 1)
    (by unfold inDomain cfgTest; norm_num)
    (fun _ => 0) (fun _ _ => (5/2, 0))

theorem cfg500_gridWidth : cfg500.gridWidth = 89 := by
  have hc : ⌈cfg500.shapeW / cfg500.cellSize⌉ = (89:ℤ) := by
    rw [show cfg500.shapeW = 500 from rfl, show cfg500.cellSize = 113/20 from rfl,
      Int.ceil_eq_iff]
    constructor <;> norm_num
  unfold PDSConfig.gridWidth
  rw [hc]
  rfl

theorem cfg500_gridHeight : cfg500.gridHeight = 89 := by
  have hc : ⌈cfg500.shapeH / cfg500.cellSize⌉ = (89:ℤ) := by
    rw [show cfg500.shapeH = 500 from rfl, show cfg500.cellSize = 113/20 from rfl,
      Int.ceil_eq_iff]
    constructor <;> norm_num
  unfold PDSConfig.gridHeight
  rw [hc]
  rfl

/-- C10: for the sampler configured by `createBasePoints` (domain
`[500,500]`, `minDistance 8`, hence an 89×89 acceptance grid), every grid
cell contains at most two accepted points (in fact at most one), so the
accepted count is at most `2·89·89 = 15842 < 65536 = 256·256`;
consequently every particle index addresses a distinct in-bounds texel of
the 256×256 state texture and every `Float32Array` write of
`createDataTexture` stays inside the array of length `256·256·4`. -/
theorem c10_texture_bounds (first : Pt) (hfirst : inDomain cfg500 first)
    (idxOracle : ℕ → ℕ) (offOracle : ℕ → ℕ → Pt) (fuel : ℕ) :
    (∀ gx gy : ℤ,
      ((fill cfg500 first idxOracle offOracle fuel).filter
        (fun p => decide (gridX cfg500 p = gx ∧ gridY cfg500 p = gy))).length ≤ 2) ∧
    (fill cfg500 first idxOracle offOracle fuel).length ≤ 15842 ∧
    15842 < 256 * 256 ∧
    (∀ i : ℕ, i < (fill cfg500 first idxOracle offOracle fuel).length →
      ∀ j ∈ texWriteIndices i, j < texSize * texSize * 4) ∧
    (∀ i j : ℕ, i < (fill cfg500 first idxOracle offOracle fuel).length →
      j < (fill cfg500 first idxOracle offOracle fuel).length → i ≠ j →
      texel i ≠ texel j) := by
  have hinv := fillLoop_inv cfg500_WF idxOracle offOracle fuel 0 _ (inv_start hfirst)
  have hlen : (fill cfg500 first idxOracle offOracle fuel).length ≤ 7921 := by
    have h := points_card_le cfg500_WF hinv
    rw [cfg500_gridWidth, cfg500_gridHeight] at h
    exact h
  refine ⟨?_, by omega, by norm_num, ?_, ?_⟩
  · intro gx gy
    exact le_trans (cell_count_le_one cfg500_WF hinv gx gy) (by norm_num)
  · intro i hi j hj
    have hts : texSize * texSize * 4 = 262144 := by norm_num [texSize]
    rw [hts]
    simp only [texWriteIndices, List.mem_cons, List.not_mem_nil, or_false] at hj
    rcases hj with rfl | rfl | rfl | rfl <;> omega
  · intro i j hi hj hne heq
    unfold texel at heq
    injection heq with e1 e2
    have hi2 : i < 65536 := by
      have : texSize = 256 := rfl
      omega
    have hj2 : j < 65536 := by omega
    apply hne
    have hs : texSize = 256 := rfl
    rw [hs] at e1 e2
    omega

/-- C10 witness: the bounds instantiated on a concrete (fuel-0) run. -/
theorem c10_texture_bounds_witness :
    ((fill cfg500 (1, 1) (fun _ => 0) (fun _ _ => (0, 0)) 0).filter
      (fun p => decide (gridX cfg500 p = 0 ∧ gridY cfg500 p = 0))).length ≤ 2 ∧
    (fill cfg500 (1, 1) (fun _ => 0) (fun _ _ => (0, 0)) 0).length ≤ 15842 :=
  ⟨(c10_texture_bounds (1, 1) (by unfold inDomain cfg500; norm_num)
      (fun _ => 0) (fun _ _ => (0, 0)) 0).1 0 0,
   (c10_texture_bounds (1, 1) (by unfold inDomain cfg500; norm_num)
      (fun _ => 0) (fun _ _ => (0, 0)) 0).2.1⟩

end HeroParticles
